import Mathlib

/-!
A verification development for the checker core of a Mizar-style proof checker
(files `checker.rs`, `equate.rs`, `unify.rs`).  The Rust data model and the
operations under scrutiny are embedded shallowly: terms and formulas become
inductive types, `BTreeMap<AtomId, bool>` becomes a key-sorted association
list, stateful procedures become state-passing functions, Rust panics become
an explicit `crash`-style result, and the `Unsat` early-return signal becomes
the error branch of `Except`.

Bound variables: the code addresses quantified variables by absolute level
(`SetVar` in checker.rs rewrites `Bound` indices without consulting the local
traversal depth, and `OnVarMut` callbacks receive the raw index), so the
visitors below transform every `Bound` index uniformly.

The embedding covers the fragment of the term/formula language exercised by
the properties below; constructors that never occur in them (scheme/private
functors, Fraenkel terms, aggregates, selectors, choice) are omitted, which
makes the `ExpandPrivFunc` visitor of the source the identity on this
fragment.
-/

namespace Mizar

/-- Terms (types.rs `Term`, restricted to the fragment used here).
`Bound` is a de Bruijn level, `EqMark` is an equalizer mark reference. -/
inductive Term where
  | Bound (nr : Nat)
  | Constant (nr : Nat)
  | FreeVar (nr : Nat)
  | Locus (nr : Nat)
  | Infer (nr : Nat)
  | Numeral (nr : Nat)
  | Functor (nr : Nat) (args : List Term)
  | EqMark (nr : Nat)

mutual
/-- Boolean structural equality on terms. -/
def Term.beq : Term → Term → Bool
  | .Bound n, .Bound m => n == m
  | .Constant n, .Constant m => n == m
  | .FreeVar n, .FreeVar m => n == m
  | .Locus n, .Locus m => n == m
  | .Infer n, .Infer m => n == m
  | .Numeral n, .Numeral m => n == m
  | .Functor n as, .Functor m bs => n == m && Term.beqL as bs
  | .EqMark n, .EqMark m => n == m
  | _, _ => false
/-- Boolean structural equality on term lists. -/
def Term.beqL : List Term → List Term → Bool
  | [], [] => true
  | a :: as, b :: bs => Term.beq a b && Term.beqL as bs
  | _, _ => false
end

theorem Term.termBeq_iff : ∀ a b : Term, Term.beq a b = true ↔ a = b := by
  intro a
  induction a using Term.rec (motive_2 := fun as => ∀ bs, Term.beqL as bs = true ↔ as = bs) with
  | Bound n => intro b; cases b <;> simp [Term.beq]
  | Constant n => intro b; cases b <;> simp [Term.beq]
  | FreeVar n => intro b; cases b <;> simp [Term.beq]
  | Locus n => intro b; cases b <;> simp [Term.beq]
  | Infer n => intro b; cases b <;> simp [Term.beq]
  | Numeral n => intro b; cases b <;> simp [Term.beq]
  | Functor n as ih => intro b; cases b <;> simp [Term.beq, *]
  | EqMark n => intro b; cases b <;> simp [Term.beq]
  | nil => rename_i bs; cases bs <;> simp [Term.beqL]
  | cons a as iha ihas => rename_i bs; cases bs <;> simp [Term.beqL, *]

instance : DecidableEq Term := fun a b => decidable_of_iff _ (Term.termBeq_iff a b)

/-- Type kinds (types.rs `TypeKind`). -/
inductive TyKind where
  | Mode (nr : Nat)
  | Struct (nr : Nat)
deriving DecidableEq

/-- Types (types.rs `Type`): a kind and positional term arguments.  The two
attribute clusters are omitted; none of the operations below consults them. -/
structure Ty where
  kind : TyKind
  args : List Term
deriving DecidableEq

/-- Formulas (types.rs `Formula`, restricted to the fragment used here). -/
inductive Formula where
  | True
  | Thesis
  | Neg (f : Formula)
  | And (args : List Formula)
  | ForAll (dom : Ty) (scope : Formula)
  | Pred (nr : Nat) (args : List Term)
  | Attr (nr : Nat) (args : List Term)
  | SchPred (nr : Nat) (args : List Term)
  | Is (term : Term) (ty : Ty)
  | FlexAnd (orig1 orig2 : Formula) (t1 t2 : Term) (expansion : Formula)

mutual
/-- Boolean structural equality on formulas. -/
def Formula.beq : Formula → Formula → Bool
  | .True, .True => true
  | .Thesis, .Thesis => true
  | .Neg f, .Neg g => Formula.beq f g
  | .And as, .And bs => Formula.beqL as bs
  | .ForAll d1 s1, .ForAll d2 s2 => d1 == d2 && Formula.beq s1 s2
  | .Pred n as, .Pred m bs => n == m && as == bs
  | .Attr n as, .Attr m bs => n == m && as == bs
  | .SchPred n as, .SchPred m bs => n == m && as == bs
  | .Is t1 y1, .Is t2 y2 => t1 == t2 && y1 == y2
  | .FlexAnd a1 b1 t1 u1 e1, .FlexAnd a2 b2 t2 u2 e2 =>
    Formula.beq a1 a2 && Formula.beq b1 b2 && t1 == t2 && u1 == u2 && Formula.beq e1 e2
  | _, _ => false
/-- Boolean structural equality on formula lists. -/
def Formula.beqL : List Formula → List Formula → Bool
  | [], [] => true
  | a :: as, b :: bs => Formula.beq a b && Formula.beqL as bs
  | _, _ => false
end

theorem Formula.formulaBeq_iff : ∀ a b : Formula, Formula.beq a b = true ↔ a = b := by
  intro a
  induction a using Formula.rec
      (motive_2 := fun as => ∀ bs, Formula.beqL as bs = true ↔ as = bs) with
  | True => intro b; cases b <;> simp [Formula.beq]
  | Thesis => intro b; cases b <;> simp [Formula.beq]
  | Neg f ih => intro b; cases b <;> simp [Formula.beq, *]
  | And as ih => intro b; cases b <;> simp [Formula.beq, *]
  | ForAll d s ih => intro b; cases b <;> simp [Formula.beq, *]
  | Pred n as => intro b; cases b <;> simp [Formula.beq]
  | Attr n as => intro b; cases b <;> simp [Formula.beq]
  | SchPred n as => intro b; cases b <;> simp [Formula.beq]
  | Is t y => intro b; cases b <;> simp [Formula.beq]
  | FlexAnd a1 b1 t1 u1 e1 ih1 ih2 ih3 =>
    intro b; cases b <;> simp [Formula.beq, *]
    tauto
  | nil => rename_i bs; cases bs <;> simp [Formula.beqL]
  | cons a as iha ihas => rename_i bs; cases bs <;> simp [Formula.beqL, *]

instance : DecidableEq Formula := fun a b => decidable_of_iff _ (Formula.formulaBeq_iff a b)

/-! ### The DNF builder (checker.rs: `Conjunct`, `Dnf`, `Atoms`)

`BTreeMap<AtomId, bool>` is embedded as an association list sorted strictly
by key; `BTreeMap::get`, `BTreeMap::insert` (returning the previous value)
and in-order iteration become `mapGet`, `mapInsert` and plain list folds. -/

/-- `BTreeMap::get`. -/
def mapGet : List (Nat × Bool) → Nat → Option Bool
  | [], _ => none
  | (k1, v1) :: rest, k => if k = k1 then some v1 else mapGet rest k

/-- `BTreeMap::insert`: returns the previous value at the key (if any) and
the updated sorted map. -/
def mapInsert : List (Nat × Bool) → Nat → Bool → Option Bool × List (Nat × Bool)
  | [], k, v => (none, [(k, v)])
  | (k1, v1) :: rest, k, v =>
    if k < k1 then (none, (k, v) :: (k1, v1) :: rest)
    else if k = k1 then (some v1, (k, v) :: rest)
    else
      let r := mapInsert rest k v
      (r.1, (k1, v1) :: r.2)

/-- checker.rs `Conjunct`: a map from atom ids to signs, so
`{a: true, b: false}` represents `a ∧ ¬b`. -/
structure Conjunct where
  m : List (Nat × Bool)
deriving DecidableEq

/-- checker.rs `Conjunct::single`. -/
def Conjunct.single (a : Nat) (pos : Bool) : Conjunct := ⟨[(a, pos)]⟩

/-- checker.rs `Conjunct::weaker_than` (NatFunc.WeakerThan): true when the
map is no longer than the other and every entry of `self` occurs in `other`
with the same sign. -/
def Conjunct.weaker_than (c1 c2 : Conjunct) : Bool :=
  decide (c1.m.length ≤ c2.m.length) &&
    c1.m.all fun av => (mapGet c2.m av.1).elim false fun v1 => v1 == av.2

/-- Entry-by-entry loop of checker.rs `Conjunct::mk_and` (JoinAtom): insert
each entry of the second operand, failing when a key is already present with
the opposite sign. -/
def Conjunct.joinList : List (Nat × Bool) → List (Nat × Bool) → Except Unit (List (Nat × Bool))
  | m, [] => .ok m
  | m, (k, v) :: rest =>
    match mapInsert m k v with
    | (some v1, m2) => if v1 != v then .error () else Conjunct.joinList m2 rest
    | (none, m2) => Conjunct.joinList m2 rest

/-- checker.rs `Conjunct::mk_and` (NatFunc.JoinAtom). -/
def Conjunct.mk_and (c1 c2 : Conjunct) : Except Unit Conjunct :=
  (Conjunct.joinList c1.m c2.m).map Conjunct.mk

/-- checker.rs `Dnf`: the constant true, or a list of conjuncts joined by OR. -/
inductive Dnf where
  | True
  | Or (conjs : List Conjunct)
deriving DecidableEq

/-- checker.rs `Dnf::mk_bool` (InitTop / InitBottom). -/
def Dnf.mk_bool (pos : Bool) : Dnf := if pos then .True else .Or []

/-- checker.rs `Dnf::insert_and_absorb`, translated clause by clause: scan
the list; if the new conjunct is weaker than an entry, stop; if an entry is
weaker than the new conjunct, overwrite that entry with it and drop the later
entries that are weaker than it; when the scan falls off the end the list is
returned unchanged (the loop in the source has no trailing push). -/
def Dnf.insert_and_absorb : List Conjunct → Conjunct → List Conjunct
  | [], _ => []
  | c1 :: rest, c =>
    if c.weaker_than c1 then c1 :: rest
    else if c1.weaker_than c then
      c :: rest.filter fun c2 => !c2.weaker_than c
    else c1 :: Dnf.insert_and_absorb rest c

/-- checker.rs `Dnf::mk_and` (commented `PreInstCollection.JoinWith`): if
either side is `True` the other is kept; otherwise every conjunct of the
second operand is inserted into the first by `insert_and_absorb`. -/
def Dnf.mk_and : Dnf → Dnf → Dnf
  | .True, other => other
  | this, .True => this
  | .Or this, .Or other => .Or (other.foldl Dnf.insert_and_absorb this)

/-- Double loop of checker.rs `Dnf::mk_or`: all pairwise `Conjunct::mk_and`
merges, unsatisfiable pairs dropped. -/
def Dnf.mkOrPairs (this other : List Conjunct) : List Conjunct :=
  (this.map fun c1 => other.filterMap fun c2 => (c1.mk_and c2).toOption).flatten

/-- checker.rs `Dnf::mk_or` (commented `PreInstCollection.UnionWith`): `True`
absorbs; against a singleton, each conjunct is merged with it in place and
unsatisfiable merges are dropped; otherwise all pairwise consistent merges
are collected. -/
def Dnf.mk_or : Dnf → Dnf → Dnf
  | .True, _ => .True
  | .Or _, .True => .True
  | .Or this, .Or other =>
    match other with
    | [conj2] => .Or (this.filterMap fun c1 => (c1.mk_and conj2).toOption)
    | _ => .Or (Dnf.mkOrPairs this other)

/-- The scan of checker.rs `Atoms::find`, carrying the index of the next
atom: the index of the first atom equal to the formula. -/
def Atoms.findFrom (i : Nat) (atoms : List Formula) (f : Formula) : Option Nat :=
  match atoms with
  | [] => none
  | g :: rest => if g = f then some i else Atoms.findFrom (i + 1) rest f

/-- checker.rs `Atoms`: the interning table of atomic formulas.  Structural
equality stands in for the `Equate`-based `eq_formula` used by `Atoms::find`. -/
def Atoms.find (atoms : List Formula) (f : Formula) : Option Nat :=
  Atoms.findFrom 0 atoms f

/-- checker.rs `Atoms::insert`: the index of the first equal atom, or the
formula appended at a fresh index. -/
def Atoms.insert (atoms : List Formula) (f : Formula) : Nat × List Formula :=
  match Atoms.find atoms f with
  | some i => (i, atoms)
  | none => (atoms.length, atoms ++ [f])

mutual
/-- checker.rs `Atoms::normalize`: convert a formula under a polarity to DNF.
`Neg` flips polarity, `And` folds the child DNFs with `Dnf::mk_and` (positive)
or `Dnf::mk_or` (negative), `True` is `mk_bool`, anything else is interned as
an atom yielding a singleton conjunct. -/
def Atoms.normalize (atoms : List Formula) : Formula → Bool → List Formula × Dnf
  | .Neg f, pos => Atoms.normalize atoms f (!pos)
  | .And args, pos => Atoms.normalizeAnd atoms args pos (Dnf.mk_bool pos)
  | .True, pos => (atoms, Dnf.mk_bool pos)
  | f, pos =>
    let r := Atoms.insert atoms f
    (r.2, .Or [Conjunct.single r.1 pos])
/-- The `And` loop of `Atoms::normalize`. -/
def Atoms.normalizeAnd (atoms : List Formula) : List Formula → Bool → Dnf → List Formula × Dnf
  | [], _, res => (atoms, res)
  | f :: fs, pos, res =>
    let r := Atoms.normalize atoms f pos
    Atoms.normalizeAnd r.1 fs pos (if pos then res.mk_and r.2 else res.mk_or r.2)
end

/-! ### Formula construction helpers

`Formula::mk_neg`, `Formula::maybe_neg`, `Formula::mk_and` and
`Formula::append_conjuncts_to` live in types.rs, which is not part of this
snapshot; they are modelled from the spec's description of polarity-aware
construction and conjunct flattening. -/

/-- Modelled from the spec: `Formula::mk_neg` (types.rs, absent from the
snapshot).  Negation, with double negation cancelled, as required for
`maybe_neg` to realize the polarity conventions of §4.1. -/
def Formula.mk_neg : Formula → Formula
  | .Neg f => f
  | f => .Neg f

/-- Modelled from the spec: `Formula::maybe_neg` (types.rs, absent from the
snapshot).  Identity under positive polarity, `mk_neg` under negative. -/
def Formula.maybe_neg (f : Formula) (pos : Bool) : Formula :=
  if pos then f else f.mk_neg

/-- Modelled from the spec: `Formula::append_conjuncts_to` (types.rs, absent
from the snapshot), as the list of conjuncts a formula contributes to an
enclosing `And`: a conjunction is flattened, anything else is one conjunct. -/
def Formula.appendConjuncts : Formula → List Formula
  | .And args => args
  | f => [f]

/-- Modelled from the spec: `Formula::mk_and` (types.rs, absent from the
snapshot).  The conjunction of a list, with `True` for the empty list and no
unary `And`. -/
def Formula.mk_and : List Formula → Formula
  | [] => .True
  | [f] => f
  | args => .And args

/-! ### Bound-variable visitors (`OnVarMut` and companions)

The source addresses quantified variables by absolute level, so its
`OnVarMut` visitor applies its callback to every `Bound` index in the
formula, including those under further binders, and `SetVar`-style shifting
compares raw indices.  `onVar` maps a function over every `Bound` index, and
`anyVar` tests whether some `Bound` index satisfies a predicate. -/

mutual
/-- Map a function over every `Bound` index of a term (`OnVarMut`). -/
def Term.onVar (g : Nat → Nat) : Term → Term
  | .Bound nr => .Bound (g nr)
  | .Constant nr => .Constant nr
  | .FreeVar nr => .FreeVar nr
  | .Locus nr => .Locus nr
  | .Infer nr => .Infer nr
  | .Numeral nr => .Numeral nr
  | .Functor nr args => .Functor nr (Term.onVarL g args)
  | .EqMark nr => .EqMark nr
/-- `onVar` on a term list. -/
def Term.onVarL (g : Nat → Nat) : List Term → List Term
  | [] => []
  | t :: ts => Term.onVar g t :: Term.onVarL g ts
end

/-- `onVar` on a type (the visitor descends into the type's arguments). -/
def Ty.onVar (g : Nat → Nat) (ty : Ty) : Ty :=
  ⟨ty.kind, Term.onVarL g ty.args⟩

mutual
/-- Map a function over every `Bound` index of a formula (`OnVarMut`). -/
def Formula.onVar (g : Nat → Nat) : Formula → Formula
  | .True => .True
  | .Thesis => .Thesis
  | .Neg f => .Neg (Formula.onVar g f)
  | .And args => .And (Formula.onVarL g args)
  | .ForAll dom scope => .ForAll (dom.onVar g) (Formula.onVar g scope)
  | .Pred nr args => .Pred nr (Term.onVarL g args)
  | .Attr nr args => .Attr nr (Term.onVarL g args)
  | .SchPred nr args => .SchPred nr (Term.onVarL g args)
  | .Is t ty => .Is (Term.onVar g t) (ty.onVar g)
  | .FlexAnd o1 o2 t1 t2 e =>
    .FlexAnd (Formula.onVar g o1) (Formula.onVar g o2)
      (Term.onVar g t1) (Term.onVar g t2) (Formula.onVar g e)
/-- `onVar` on a formula list. -/
def Formula.onVarL (g : Nat → Nat) : List Formula → List Formula
  | [] => []
  | f :: fs => Formula.onVar g f :: Formula.onVarL g fs
end

mutual
/-- Does some `Bound` index of the term satisfy `p`? -/
def Term.anyVar (p : Nat → Bool) : Term → Bool
  | .Bound nr => p nr
  | .Functor _ args => Term.anyVarL p args
  | _ => false
/-- `anyVar` on a term list. -/
def Term.anyVarL (p : Nat → Bool) : List Term → Bool
  | [] => false
  | t :: ts => Term.anyVar p t || Term.anyVarL p ts
end

/-- `anyVar` on a type. -/
def Ty.anyVar (p : Nat → Bool) (ty : Ty) : Bool :=
  Term.anyVarL p ty.args

mutual
/-- Does some `Bound` index of the formula satisfy `p`?  This is the
read-only `OnVarMut` pass used for the "nontrivial" test in
`distribute_quantifiers`. -/
def Formula.anyVar (p : Nat → Bool) : Formula → Bool
  | .True => false
  | .Thesis => false
  | .Neg f => Formula.anyVar p f
  | .And args => Formula.anyVarL p args
  | .ForAll dom scope => dom.anyVar p || Formula.anyVar p scope
  | .Pred _ args => Term.anyVarL p args
  | .Attr _ args => Term.anyVarL p args
  | .SchPred _ args => Term.anyVarL p args
  | .Is t ty => Term.anyVar p t || ty.anyVar p
  | .FlexAnd o1 o2 t1 t2 e =>
    Formula.anyVar p o1 || Formula.anyVar p o2 || Term.anyVar p t1 ||
      Term.anyVar p t2 || Formula.anyVar p e
/-- `anyVar` on a formula list. -/
def Formula.anyVarL (p : Nat → Bool) : List Formula → Bool
  | [] => false
  | f :: fs => Formula.anyVar p f || Formula.anyVarL p fs
end

/-! ### `Formula::distribute_quantifiers` (checker.rs lines 213-255)

`ExpandPrivFunc` is the identity on the embedded fragment (there are no
private functors here), so its `visit_type`/`visit_formula` calls disappear.
The `PrivPred` arm of the source is likewise outside the fragment. -/

/-- Per-conjunct step of the `ForAll` arm of `distribute_quantifiers`: a
conjunct mentioning level `depth` is wrapped in the quantifier; one that does
not gets every index above `depth` decremented. -/
def Formula.distStep (dom : Ty) (depth : Nat) (f : Formula) : Formula :=
  if f.anyVar (· == depth) then .ForAll dom f
  else f.onVar fun nr => if depth < nr then nr - 1 else nr

mutual
/-- checker.rs `Formula::distribute_quantifiers`, translated arm by arm.  In
the `ForAll` arm the source mutates the conjuncts of an `And` scope in place
(wrapping or shifting each) but never replaces the formula itself, so the
result keeps the outer quantifier. -/
def Formula.distribute_quantifiers : Formula → Nat → Formula
  | .Neg f, depth => (f.distribute_quantifiers depth).mk_neg
  | .And args, depth => Formula.mk_and (Formula.distributeConjs args depth)
  | .ForAll dom scope, depth =>
    match scope.distribute_quantifiers (depth + 1) with
    | .And args => .ForAll dom (.And (args.map (Formula.distStep dom depth)))
    | s => .ForAll dom s
  | f, _ => f
/-- The `And` loop of `distribute_quantifiers`: rewrite each conjunct, then
flatten with `append_conjuncts_to`. -/
def Formula.distributeConjs : List Formula → Nat → List Formula
  | [], _ => []
  | f :: fs, depth =>
    (f.distribute_quantifiers depth).appendConjuncts ++ Formula.distributeConjs fs depth
end

/-! ### `Expand::expand_flex` (checker.rs lines 152-193)

The unfolding of a bounded flex conjunction.  `Term::adjust` (types.rs,
absent from the snapshot) is abstracted to the redirection it performs on the
constructor number, and the `zero_number` requirement lookup to an optional
constructor id; both are packaged in `FlexCtx`.  Rust panics during the
unfolding (the `unreachable!` destructurings, out-of-range `args[2]`, and the
`zero.clone().unwrap()` hit when the left bound is the literal numeral `0`)
are modelled as `none`. -/

/-- The constructor environment consulted by `expand_flex`: the
`Term::adjust` redirection on functor numbers and the `zero_number`
requirement. -/
structure FlexCtx where
  adjust : Nat → Nat
  zero_number : Option Nat

mutual
/-- The `Inst0` visitor of `expand_flex`
(ReplacePlaceHolderByConjunctNumber): `Bound 0` becomes the instance term,
every other `Bound` index is decremented, other terms are traversed. -/
def Term.inst0 (t : Term) : Term → Term
  | .Bound 0 => t
  | .Bound (n + 1) => .Bound n
  | .Constant nr => .Constant nr
  | .FreeVar nr => .FreeVar nr
  | .Locus nr => .Locus nr
  | .Infer nr => .Infer nr
  | .Numeral nr => .Numeral nr
  | .Functor nr args => .Functor nr (Term.inst0L t args)
  | .EqMark nr => .EqMark nr
/-- `Inst0` on a term list. -/
def Term.inst0L (t : Term) : List Term → List Term
  | [] => []
  | a :: as => Term.inst0 t a :: Term.inst0L t as
end

/-- `Inst0` on a type. -/
def Ty.inst0 (t : Term) (ty : Ty) : Ty :=
  ⟨ty.kind, Term.inst0L t ty.args⟩

mutual
/-- `Inst0` on a formula (`visit_formula` of the visitor). -/
def Formula.inst0 (t : Term) : Formula → Formula
  | .True => .True
  | .Thesis => .Thesis
  | .Neg f => .Neg (Formula.inst0 t f)
  | .And args => .And (Formula.inst0L t args)
  | .ForAll dom scope => .ForAll (dom.inst0 t) (Formula.inst0 t scope)
  | .Pred nr args => .Pred nr (Term.inst0L t args)
  | .Attr nr args => .Attr nr (Term.inst0L t args)
  | .SchPred nr args => .SchPred nr (Term.inst0L t args)
  | .Is tm ty => .Is (Term.inst0 t tm) (ty.inst0 t)
  | .FlexAnd o1 o2 t1 t2 e =>
    .FlexAnd (Formula.inst0 t o1) (Formula.inst0 t o2)
      (Term.inst0 t t1) (Term.inst0 t t2) (Formula.inst0 t e)
/-- `Inst0` on a formula list. -/
def Formula.inst0L (t : Term) : List Formula → List Formula
  | [] => []
  | f :: fs => Formula.inst0 t f :: Formula.inst0L t fs
end

/-- The left-bound analysis of `expand_flex` (checker.rs lines 156-166): a
functor whose adjusted number is the `zero_number` requirement stands for `0`
and is remembered as the zero term; a numeral is itself; anything else makes
the function return with the conjunct list untouched (`none` here). -/
def flexLeft (ctx : FlexCtx) : Term → Option (Option Term × Nat)
  | .Functor nr args =>
    if ctx.zero_number == some (ctx.adjust nr) then some (some (.Functor nr args), 0)
    else none
  | .Numeral nr => some (none, nr)
  | _ => none

/-- The instance term for index `i` (checker.rs line 187): the remembered
zero term when `i = 0` (panicking — `none` — when there is none), else the
numeral `i`. -/
def flexInstTerm (zero : Option Term) (i : Nat) : Option Term :=
  if i = 0 then zero else some (.Numeral i)

/-- The instantiation loop of `expand_flex` (checker.rs lines 175-191): for
each `i` in `left..=right`, substitute the instance term into the scope by
`Inst0`, apply `maybe_neg (!pos)`, and append the resulting conjuncts. -/
def flexLoop (zero : Option Term) (scope : Formula) (pos : Bool) :
    List Nat → List Formula → Option (List Formula)
  | [], conjs => some conjs
  | i :: is, conjs =>
    match flexInstTerm zero i with
    | none => none
    | some tm =>
      flexLoop zero scope pos is (conjs ++ ((scope.inst0 tm).maybe_neg (!pos)).appendConjuncts)

/-- checker.rs `Expand::expand_flex` (ExpandFlex): with a recognized left
bound and a numeral right bound whose distance is at most 100, destructure
the expansion as `∀ x. ¬(c₀ ∧ c₁ ∧ …)`, take the element after the first two
conjuncts as the scope, and run the instantiation loop; otherwise the
conjunct list is returned untouched. -/
def expand_flex (ctx : FlexCtx) (t1 t2 : Term) (expansion : Formula)
    (conjs : List Formula) (pos : Bool) : Option (List Formula) :=
  match flexLeft ctx t1 with
  | none => some conjs
  | some (zero, left) =>
    match t2 with
    | .Numeral right =>
      if right - left ≤ 100 then
        match expansion with
        | .ForAll _ (.Neg (.And args)) =>
          match args.get? 2 with
          | some scope => flexLoop zero scope pos (List.range' left (right + 1 - left)) conjs
          | none => none
        | _ => none
      else some conjs
    | _ => some conjs

/-! ### Attributes and superclusters (equate.rs lines 54-67, 884-919)

`Attrs` is either the `⊥`-witness `Inconsistent` or a consistent attribute
list.  `Attrs::insert` itself lives in types.rs (absent from the snapshot)
and is modelled from the spec; `try_attrs`, `try_insert` and the supercluster
re-insertion loop of `union_terms` are translated from equate.rs. -/

/-- types.rs `Attr`: predicate symbol, sign, and arguments (the subject term
is held separately by the callers modelled here). -/
structure Attr where
  nr : Nat
  pos : Bool
  args : List Term
deriving DecidableEq

/-- equate.rs / types.rs `Attrs`. -/
inductive Attrs where
  | Inconsistent
  | Consistent (attrs : List Attr)
deriving DecidableEq

/-- Modelled from the spec: `Attrs::insert` (types.rs, absent from the
snapshot).  Per §3.1 an `Attrs` is a sorted vector keyed by adjusted
constructor number with tie-break on arguments, and an insertion whose key is
present with the opposite sign makes the whole value `Inconsistent`.  The
position of the insertion is immaterial to consistency, so the new attribute
is appended; the returned flag reports whether anything changed. -/
def Attrs.insert (s : Attrs) (a : Attr) : Attrs × Bool :=
  match s with
  | .Inconsistent => (.Inconsistent, false)
  | .Consistent l =>
    if l.any fun b => b.nr == a.nr && b.args == a.args && b.pos != a.pos then
      (.Inconsistent, true)
    else if a ∈ l then (.Consistent l, false)
    else (.Consistent (l ++ [a]), true)

/-- equate.rs `Attrs::try_attrs`: the attribute list, or the `Unsat` signal
when inconsistent. -/
def Attrs.try_attrs : Attrs → Except Unit (List Attr)
  | .Inconsistent => .error ()
  | .Consistent attrs => .ok attrs

/-- equate.rs `Attrs::try_insert`: insert, then check consistency, raising
`Unsat` when the result is `Inconsistent`. -/
def Attrs.try_insert (s : Attrs) (a : Attr) : Except Unit (Bool × Attrs) :=
  let r := s.insert a
  match r.1.try_attrs with
  | .error e => .error e
  | .ok _ => .ok (r.2, r.1)

/-- The supercluster re-insertion loop of equate.rs `Equalizer::union_terms`
(lines 909-913): every attribute of the absorbed class is `try_insert`ed into
the surviving class's supercluster, propagating the `Unsat` signal. -/
def reinsertAttrs (tgt : Attrs) : List Attr → Except Unit Attrs
  | [] => .ok tgt
  | a :: rest =>
    match tgt.try_insert a with
    | .error e => .error e
    | .ok r => reinsertAttrs r.2 rest

/-! ### Predicate properties, `add_symm` and `check_refl`
(equate.rs lines 843-872, 1431-1433, 1585-1592, 1943, 2035-2045) -/

/-- types.rs `PropertyKind`, restricted to the properties used here. -/
inductive PropertyKind where
  | Symmetry
  | Asymmetry
  | Connectedness
  | Reflexivity
  | Irreflexivity
deriving DecidableEq

/-- The predicate-constructor record consulted by `add_symm` and
`check_refl`: the properties bitset and the two designated argument
positions. -/
structure PredConstr where
  properties : PropertyKind → Bool
  arg1 : Nat
  arg2 : Nat

/-- Rust `Vec::swap` on a term list, `none` on an out-of-bounds index
(a Rust panic). -/
def listSwap (l : List Term) (i j : Nat) : Option (List Term) :=
  match l.get? i, l.get? j with
  | some a, some b => some ((l.set i b).set j a)
  | _, _ => none

/-- equate.rs `Equalizer::add_symm` (lines 843-855): for each positive-basis
`Pred` atom whose constructor has the given property, when the atom itself is
not found in the negative basis, insert (`Atoms::insert`, so find-or-append)
the atom with the two designated arguments swapped into the negative basis.
`Equalizer::run` (lines 1431-1433) calls this with `Asymmetry` from the
positive into the negative basis and with `Connectedness` mirrored. -/
def add_symm (tbl : Nat → PredConstr) : List Formula → List Formula →
    PropertyKind → Option (List Formula)
  | [], neg, _ => some neg
  | f :: rest, neg, prop =>
    match f with
    | .Pred nr args =>
      let pred := tbl nr
      if pred.properties prop && (Atoms.find neg (.Pred nr args)).isNone then
        match listSwap args pred.arg1 pred.arg2 with
        | none => none
        | some args2 => add_symm tbl rest ((Atoms.insert neg (.Pred nr args2)).2) prop
      else add_symm tbl rest neg prop
    | _ => add_symm tbl rest neg prop

/-- Outcomes of a stateful procedure that can panic (`crash`), raise the
`Unsat` signal (`unsat`), or finish normally. -/
inductive PRes (α : Type) where
  | crash
  | unsat
  | ok (a : α)
deriving DecidableEq

/-- The equalizer view consulted by `check_refl`: the predicate-constructor
table, the mark table (`lc.marks[m].1`, the owner class of a mark) and the
canonical mark of each class (`terms[et].mark`). -/
structure EqModel where
  pred : Nat → PredConstr
  marks : Nat → Nat
  classMark : Nat → Nat

/-- types.rs `Term::mark`: the mark id of an `EqMark` term. -/
def Term.markId : Term → Option Nat
  | .EqMark m => some m
  | _ => none

/-- equate.rs `Ineqs::push` (lines 2036-2045): order the pair ascending —
equal members are `unreachable!`, a crash — and append it unless present. -/
def Ineqs.push (l : List (Nat × Nat)) (a b : Nat) : Option (List (Nat × Nat)) :=
  if a < b then some (if (a, b) ∈ l then l else l ++ [(a, b)])
  else if a = b then none
  else some (if (b, a) ∈ l then l else l ++ [(b, a)])

/-- equate.rs `Equalizer::check_refl` (lines 857-872): scan the atom list; a
`Pred` atom whose constructor has the property and whose two designated
arguments are marks owned by the same class raises `Unsat`; with distinct
classes the pair of their canonical marks is pushed as an inequation.
`Equalizer::run` calls this at line 1943 with the negative basis and
`Reflexivity` (and mirrors it at lines 1585-1592 without recording). -/
def check_refl (em : EqModel) : List Formula → PropertyKind →
    List (Nat × Nat) → PRes (List (Nat × Nat))
  | [], _, ineqs => .ok ineqs
  | f :: rest, prop, ineqs =>
    match f with
    | .Pred nr args =>
      let pred := em.pred nr
      if pred.properties prop then
        match (args.get? pred.arg1).bind Term.markId, (args.get? pred.arg2).bind Term.markId with
        | some m1, some m2 =>
          let et1 := em.marks m1
          let et2 := em.marks m2
          if et1 = et2 then .unsat
          else
            match Ineqs.push ineqs (em.classMark et1) (em.classMark et2) with
            | none => .crash
            | some ineqs2 => check_refl em rest prop ineqs2
        | _, _ => .crash
      else check_refl em rest prop ineqs
    | _ => check_refl em rest prop ineqs

/-! ### The resolution clause-count guard (unify.rs lines 176-199)

`Unifier::resolution` opens and normalizes its input formulas and folds the
resulting DNFs into `all_clauses`; the claim under study conditions on that
combined DNF, so it is taken as the input here.  Everything after the guard
(the complementary-literal search and resolvent verification of lines
201-252) can only run when the guard passes and is abstracted as the
`search` argument, universally quantified in the theorems below. -/

/-- unify.rs `Unifier::resolution`, lines 194-199: when the combined DNF is
`True`, or its clause count is below 2 or above 4, return without proof
(`Ok(())`); otherwise the downstream search decides. -/
def resolution (allClauses : Dnf) (search : List Conjunct → Except Unit Unit) :
    Except Unit Unit :=
  match allClauses with
  | .True => .ok ()
  | .Or cls => if cls.length < 2 || 4 < cls.length then .ok () else search cls

/-! ### The per-justification frame of `Checker::justify`
(checker.rs lines 27-50)

In this snapshot `precheck` ends in `todo!()` and `equate`/`pre_unification`
/`unify` are `todo!()` stubs, so the pipeline stages are modelled from the
spec as abstract state transformers over the frame-relevant portion of the
state: the lengths of `fixed_var` and `infer_const`, the `term_cache` scope
depth, and the `recursive_round_up` flag of `Global`.  Per §5 of the spec
the stages observe stack discipline: they only grow the variable vectors and
leave the scope depth balanced; the theorems take this as a hypothesis. -/

/-- The frame-relevant checker state: lengths of `lc.fixed_var` and
`lc.infer_const`, the `lc.term_cache` scope depth, and
`g.recursive_round_up`. -/
structure CkState where
  fixed_var : Nat
  infer_const : Nat
  cache_scopes : Nat
  recursive_round_up : Bool
deriving DecidableEq

/-- `term_cache.open_scope`. -/
def CkState.open_scope (s : CkState) : CkState :=
  { s with cache_scopes := s.cache_scopes + 1 }

/-- `term_cache.close_scope`. -/
def CkState.close_scope (s : CkState) : CkState :=
  { s with cache_scopes := s.cache_scopes - 1 }

/-- The conjunct loop of `justify` (checker.rs lines 36-44): run the
`equate → pre_unification → unify` pipeline (`stage`) on each DNF conjunct;
a conjunct on which the pipeline does not break with `Unsat` fails the
`assert!` — a panic, modelled as `.error` carrying the state at the panic. -/
def runConjuncts (stage : α → CkState → CkState × Bool) :
    List α → CkState → Except CkState CkState
  | [], s => .ok s
  | f :: rest, s =>
    let r := stage f s
    if r.2 then runConjuncts stage rest r.1 else .error r.1

/-- checker.rs `Checker::justify` (lines 27-50): open a `term_cache` scope,
snapshot the `fixed_var` and `infer_const` lengths, build the normal form
(`precheckF`, modelled from the spec), set `recursive_round_up`, require
every conjunct to be refuted, then reset the flag, truncate the two vectors
to the snapshot (`min`) and close the scope.  A failed conjunct propagates
the panic state unrestored.  The source's snapshot variables, read after
`open_scope` and before `precheck`, are the pure values
`s.open_scope.fixed_var` / `s.open_scope.infer_const`, inlined here. -/
def justify (precheckF : CkState → CkState × List α)
    (stage : α → CkState → CkState × Bool) (s : CkState) : Except CkState CkState :=
  match runConjuncts stage (precheckF s.open_scope).2
      { (precheckF s.open_scope).1 with recursive_round_up := true } with
  | .error sp => .error sp
  | .ok s4 =>
    .ok (CkState.close_scope
      { s4 with
        recursive_round_up := false
        fixed_var := min s4.fixed_var s.open_scope.fixed_var
        infer_const := min s4.infer_const s.open_scope.infer_const })

/-- The ascending normalization `Ineqs::push` applies to a pair before
recording it. -/
def normPair (a b : Nat) : Nat × Nat :=
  if a < b then (a, b) else (b, a)

/-!
## Theorems

One theorem (plus, where required, a counterexample and a witness) per
claim about the embedded operations, preceded by the helper lemmas they
share.
-/

/-- C1: the claim states that `Atoms::normalize` intersects child DNFs of a
positive conjunction through `Dnf::mk_and`, the pairwise consistent merge.
Evaluating the code: `mk_and` of the two singleton DNFs `{a₀}` and `{a₁}`
returns `{a₀}` — the second operand's conjunct, being comparable to no
existing one, is silently dropped by `insert_and_absorb` — instead of the
pairwise merge `{a₀ ∧ a₁}`, and accordingly `normalize` maps the conjunction
of two distinct atoms to the DNF of its first atom alone.  (`mk_and`'s body
performs the union-style insertion its sibling `mk_or` is documented with,
`PreInstCollection.UnionWith`, while `mk_or` performs the pairwise
`Conjunct::mk_and` merge: the two bodies are interchanged.) -/
theorem C1_mk_and_is_not_pairwise_merge :
    Dnf.mk_and (.Or [⟨[(0, true)]⟩]) (.Or [⟨[(1, true)]⟩]) = .Or [⟨[(0, true)]⟩] ∧
    Dnf.mk_and (.Or [⟨[(0, true)]⟩]) (.Or [⟨[(1, true)]⟩]) ≠ .Or [⟨[(0, true), (1, true)]⟩] ∧
    (Atoms.normalize [] (.And [.Pred 0 [], .Pred 1 []]) true).2 = .Or [⟨[(0, true)]⟩] := by
  decide

/-- C2: the claim states that `distribute_quantifiers` rewrites
`∀ x. (A ∧ B)` to the conjunction of `∀ x. A` (for conjuncts mentioning `x`)
and the shifted `B` (for conjuncts that do not).  Evaluating the code on
`∀ x. (P(x) ∧ ∀ y. Q(y))`: the conjuncts are wrapped and shifted as the claim
describes, but the outer quantifier is never removed (the source mutates the
scope's conjuncts in place and lacks the final replacement of the `ForAll` by
its scope), so the result keeps `∀ x.` on the outside while the second
conjunct's indices have already been decremented — its variable now wrongly
refers to `x`, breaking de-Bruijn discipline. -/
theorem C2_outer_quantifier_retained :
    Formula.distribute_quantifiers
      (.ForAll ⟨.Mode 0, []⟩
        (.And [.Pred 0 [.Bound 0], .ForAll ⟨.Mode 1, []⟩ (.Pred 1 [.Bound 1])])) 0 =
      .ForAll ⟨.Mode 0, []⟩ (.And [.ForAll ⟨.Mode 0, []⟩ (.Pred 0 [.Bound 0]),
        .ForAll ⟨.Mode 1, []⟩ (.Pred 1 [.Bound 0])]) ∧
    Formula.distribute_quantifiers
      (.ForAll ⟨.Mode 0, []⟩
        (.And [.Pred 0 [.Bound 0], .ForAll ⟨.Mode 1, []⟩ (.Pred 1 [.Bound 1])])) 0 ≠
      .And [.ForAll ⟨.Mode 0, []⟩ (.Pred 0 [.Bound 0]),
        .ForAll ⟨.Mode 1, []⟩ (.Pred 1 [.Bound 0])] := by
  decide

/-- C3: the claim states that `Dnf::insert_and_absorb` drops any conjunct
dominated by a strictly weaker conjunct already present.  Evaluating the
code: inserting the dominated conjunct `{a₀ ∧ a₁}` into a DNF already
containing the strictly weaker `{a₀}` does not drop it — it replaces the
weaker conjunct (the two absorption tests are inverted); moreover the loop
has no trailing push, so inserting into the empty DNF discards the conjunct
outright. -/
theorem C3_insert_and_absorb_inverted :
    Dnf.insert_and_absorb [⟨[(0, true)]⟩] ⟨[(0, true), (1, true)]⟩ =
      [⟨[(0, true), (1, true)]⟩] ∧
    Dnf.insert_and_absorb [⟨[(0, true)]⟩] ⟨[(0, true), (1, true)]⟩ ≠ [⟨[(0, true)]⟩] ∧
    Dnf.insert_and_absorb [] ⟨[(0, true)]⟩ = [] := by
  decide

/-- C8: `Unifier::resolution` returns without proof whenever the combined
DNF of its opened and normalized inputs is `True` or has fewer than 2 or more
than 4 clauses, for every possible behavior of the downstream
complementary-literal search; consequently the `Unsat` outcome is only
possible at a clause count in `[2, 4]`. -/
theorem C8_resolution_clause_guard :
    (∀ cls search, cls.length < 2 ∨ 4 < cls.length → resolution (.Or cls) search = .ok ()) ∧
    (∀ search, resolution .True search = .ok ()) ∧
    (∀ d search e, resolution d search = .error e →
      ∃ cls, d = .Or cls ∧ 2 ≤ cls.length ∧ cls.length ≤ 4) := by
  refine ⟨fun cls search h => ?_, fun search => rfl, fun d search e h => ?_⟩
  · have hb : (decide (cls.length < 2) || decide (4 < cls.length)) = true := by
      simp; omega
    simp [resolution, hb]
  · cases d with
    | True => simp [resolution] at h
    | Or cls =>
      refine ⟨cls, rfl, ?_, ?_⟩ <;> by_contra hlen <;>
      · have hb : (decide (cls.length < 2) || decide (4 < cls.length)) = true := by
          simp; omega
        simp [resolution, hb] at h

/-- C8 witness: the guard at the concrete empty clause list, with a
downstream search that would claim unsatisfiability if it were consulted. -/
theorem C8_resolution_clause_guard_witness :
    resolution (.Or []) (fun _ => .error ()) = .ok () :=
  C8_resolution_clause_guard.1 [] (fun _ => .error ()) (by decide)

/-- `Attrs::try_insert` returns normally only with a `Consistent` result: the
inserted-into value is re-checked by `try_attrs` before `Ok` is produced. -/
theorem tryInsert_ok_consistent (s : Attrs) (a : Attr) (b : Bool) (s2 : Attrs)
    (h : s.try_insert a = .ok (b, s2)) : ∃ l, s2 = .Consistent l := by
  cases hins : (s.insert a).1 with
  | Inconsistent => simp [Attrs.try_insert, hins, Attrs.try_attrs] at h
  | Consistent l =>
    simp [Attrs.try_insert, hins, Attrs.try_attrs] at h
    exact ⟨l, h.2.symm⟩

/-- C5: a supercluster insertion that would produce `Inconsistent` raises the
`Unsat` signal instead of returning normally.  `Attrs::try_insert` — the sole
way attributes enter a supercluster, used directly by the `Attr`-atom pass
and by `insert_type` — returns `Ok` only with a `Consistent` supercluster,
and the attribute re-insertion loop of `Equalizer::union_terms` likewise
returns normally only with the surviving class's supercluster `Consistent`;
hence every live class's supercluster is `Consistent` whenever equalization
proceeds. -/
theorem C5_supercluster_always_consistent :
    (∀ s a b s2, Attrs.try_insert s a = .ok (b, s2) → ∃ l, s2 = .Consistent l) ∧
    (∀ attrs tgt res, reinsertAttrs tgt attrs = .ok res →
      (∃ l0, tgt = .Consistent l0) → ∃ l, res = .Consistent l) := by
  refine ⟨tryInsert_ok_consistent, fun attrs => ?_⟩
  induction attrs with
  | nil =>
    intro tgt res h hc
    simp [reinsertAttrs] at h
    exact h ▸ hc
  | cons a rest ih =>
    intro tgt res h hc
    unfold reinsertAttrs at h
    cases htry : tgt.try_insert a with
    | error e => rw [htry] at h; simp at h
    | ok r =>
      rw [htry] at h
      exact ih r.2 res h (tryInsert_ok_consistent tgt a r.1 r.2 (by rw [htry]))

/-- C5 witness: inserting one attribute into an empty supercluster, and
re-inserting two attributes of an absorbed class, both at concrete values. -/
theorem C5_supercluster_always_consistent_witness :
    (∃ l, Attrs.Consistent [⟨0, true, []⟩] = .Consistent l) ∧
    (∃ l, Attrs.Consistent [⟨0, true, []⟩, ⟨1, false, []⟩] = .Consistent l) :=
  ⟨C5_supercluster_always_consistent.1 (.Consistent []) ⟨0, true, []⟩ true
      (.Consistent [⟨0, true, []⟩]) (by rfl),
    C5_supercluster_always_consistent.2 [⟨0, true, []⟩, ⟨1, false, []⟩] (.Consistent [])
      (.Consistent [⟨0, true, []⟩, ⟨1, false, []⟩]) (by rfl) ⟨[], rfl⟩⟩

/-- A successful `Atoms::find` scan locates a member of the atom list. -/
theorem findFrom_some_mem (i : Nat) (atoms : List Formula) (f : Formula) (j : Nat)
    (h : Atoms.findFrom i atoms f = some j) : f ∈ atoms := by
  induction atoms generalizing i with
  | nil => simp [Atoms.findFrom] at h
  | cons g rest ih =>
    unfold Atoms.findFrom at h
    by_cases hg : g = f
    · exact hg ▸ List.mem_cons_self g rest
    · rw [if_neg hg] at h
      exact List.mem_cons_of_mem _ (ih _ h)

/-- `Atoms::insert` keeps every existing atom. -/
theorem atomsInsert_mono (atoms : List Formula) (g f : Formula) (h : f ∈ atoms) :
    f ∈ (Atoms.insert atoms g).2 := by
  unfold Atoms.insert
  cases hfind : Atoms.find atoms g <;> simp [h]

/-- After `Atoms::insert`, the inserted atom is present. -/
theorem atomsInsert_self (atoms : List Formula) (g : Formula) : g ∈ (Atoms.insert atoms g).2 := by
  unfold Atoms.insert
  cases hfind : Atoms.find atoms g with
  | none => simp
  | some i => simpa using findFrom_some_mem 0 atoms g i hfind

/-- `add_symm` only ever inserts into the negative basis, so the basis it
returns contains everything the input basis had. -/
theorem add_symm_mono (tbl : Nat → PredConstr) :
    ∀ (pos neg neg2 : List Formula) (prop : PropertyKind),
      add_symm tbl pos neg prop = some neg2 → ∀ f ∈ neg, f ∈ neg2 := by
  intro pos
  induction pos with
  | nil =>
    intro neg neg2 prop h f hf
    simp [add_symm] at h
    exact h ▸ hf
  | cons g rest ih =>
    intro neg neg2 prop h f hf
    cases g
    case Pred nr args =>
      simp only [add_symm] at h
      split at h
      · split at h
        · simp at h
        · exact ih _ _ _ h f (atomsInsert_mono _ _ _ hf)
      · exact ih _ _ _ h f hf
    all_goals (simp only [add_symm] at h; exact ih _ _ _ h f hf)

/-- C6: counterexample to the claim as stated.  Both positive atoms `P(a,b)`
and `P(b,a)` carry the `Asymmetry` property; processing the first inserts its
swap `P(b,a)` into the (initially empty) negative basis, whereupon the second
atom is found there verbatim and is skipped, so the negative basis never
receives that atom's swap `P(a,b)`. -/
theorem C6_add_symm_counterexample :
    add_symm (fun _ => ⟨fun _ => true, 0, 1⟩)
      [.Pred 0 [.EqMark 0, .EqMark 1], .Pred 0 [.EqMark 1, .EqMark 0]] [] .Asymmetry =
      some [.Pred 0 [.EqMark 1, .EqMark 0]] ∧
    Formula.Pred 0 [.EqMark 0, .EqMark 1] ∉ [Formula.Pred 0 [.EqMark 1, .EqMark 0]] := by
  decide

/-- C6 (amended): after the symmetry-augmentation step, for every
positive-basis `Pred` atom whose constructor has the `Asymmetry` property,
the negative basis contains the atom with its two designated arguments
swapped — unless the atom itself is found in the (possibly already augmented)
negative basis at the moment it is processed, in which case nothing is
inserted for it and the unswapped atom is in the negative basis instead. -/
theorem C6_add_symm_amended (tbl : Nat → PredConstr) (pos : List Formula) :
    ∀ (neg neg2 : List Formula) (prop : PropertyKind),
      add_symm tbl pos neg prop = some neg2 →
      ∀ nr args, (.Pred nr args) ∈ pos → (tbl nr).properties prop = true →
        (∃ args2, listSwap args (tbl nr).arg1 (tbl nr).arg2 = some args2 ∧
          (.Pred nr args2) ∈ neg2) ∨
        (.Pred nr args) ∈ neg2 := by
  induction pos with
  | nil =>
    intro neg neg2 prop h nr args hmem
    simp at hmem
  | cons g rest ih =>
    intro neg neg2 prop h nr args hmem hprop
    rcases List.mem_cons.mp hmem with hg | hmem2
    · subst hg
      simp only [add_symm] at h
      by_cases hcond :
          ((tbl nr).properties prop && (Atoms.find neg (.Pred nr args)).isNone) = true
      · rw [if_pos hcond] at h
        cases hswap : listSwap args (tbl nr).arg1 (tbl nr).arg2 with
        | none => rw [hswap] at h; simp at h
        | some args2 =>
          rw [hswap] at h
          exact .inl ⟨args2, rfl,
            add_symm_mono tbl rest _ neg2 prop h _ (atomsInsert_self neg _)⟩
      · rw [if_neg hcond] at h
        have hfind : ∃ i, Atoms.find neg (.Pred nr args) = some i := by
          cases hf : Atoms.find neg (.Pred nr args) with
          | none => exact absurd (by simp [hprop, hf]) hcond
          | some i => exact ⟨i, rfl⟩
        rcases hfind with ⟨i, hi⟩
        exact .inr (add_symm_mono tbl rest neg neg2 prop h _ (findFrom_some_mem 0 neg _ i hi))
    · cases g
      case Pred nr2 args2 =>
        simp only [add_symm] at h
        split at h
        · split at h
          · simp at h
          · exact ih _ _ _ h nr args hmem2 hprop
        · exact ih _ _ _ h nr args hmem2 hprop
      all_goals (simp only [add_symm] at h; exact ih _ _ _ h nr args hmem2 hprop)

/-- C6 witness: one asymmetric positive atom against an empty negative basis;
its swap is inserted. -/
theorem C6_add_symm_amended_witness :
    (∃ args2, listSwap [Term.EqMark 0, Term.EqMark 1] 0 1 = some args2 ∧
      Formula.Pred 0 args2 ∈ [Formula.Pred 0 [.EqMark 1, .EqMark 0]]) ∨
    Formula.Pred 0 [Term.EqMark 0, Term.EqMark 1] ∈ [Formula.Pred 0 [.EqMark 1, .EqMark 0]] :=
  C6_add_symm_amended (fun _ => ⟨fun _ => true, 0, 1⟩) [.Pred 0 [.EqMark 0, .EqMark 1]]
    [] [.Pred 0 [.EqMark 1, .EqMark 0]] .Asymmetry (by rfl)
    0 [.EqMark 0, .EqMark 1] (by simp) rfl

/-- `Ineqs::push` on a distinct pair records the ascending normalization of
the pair and keeps every previously recorded pair. -/
theorem ineqsPush_mem (l l2 : List (Nat × Nat)) (a b : Nat) (h : Ineqs.push l a b = some l2) :
    normPair a b ∈ l2 ∧ ∀ x ∈ l, x ∈ l2 := by
  by_cases hlt : a < b
  · simp only [Ineqs.push, if_pos hlt, Option.some_inj] at h
    subst h
    refine ⟨?_, fun x hx => ?_⟩
    · simp only [normPair, if_pos hlt]
      split
      · assumption
      · simp
    · split <;> simp [hx]
  · by_cases heq : a = b
    · simp [Ineqs.push, hlt, heq] at h
    · simp only [Ineqs.push, if_neg hlt, if_neg heq, Option.some_inj] at h
      subst h
      refine ⟨?_, fun x hx => ?_⟩
      · simp only [normPair, if_neg hlt]
        split
        · assumption
        · simp
      · split <;> simp [hx]

/-- `Ineqs::push` cannot crash on a distinct pair. -/
theorem ineqsPush_ne_some (l : List (Nat × Nat)) (a b : Nat) (hne : a ≠ b) :
    ∃ l2, Ineqs.push l a b = some l2 := by
  by_cases hlt : a < b
  · exact ⟨if (a, b) ∈ l then l else l ++ [(a, b)], by simp only [Ineqs.push, if_pos hlt]⟩
  · exact ⟨if (b, a) ∈ l then l else l ++ [(b, a)],
      by simp only [Ineqs.push, if_neg hlt, if_neg hne]⟩

/-- C7: on a basis whose reflexivity-flagged `Pred` atoms are well-marked
(both designated arguments resolve to marks) and whose canonical marks are
distinct for distinct classes, `check_refl` — which `Equalizer::run` applies
to the negative basis with `Reflexivity` at line 1943, mirroring the early
check at lines 1585-1592 — returns the `Unsat` signal whenever some such
atom's designated arguments lie in the same equivalence class; and on a
normal return every such atom has its arguments in distinct classes with the
pair of their canonical marks recorded as an inequation. -/
theorem C7_check_refl_refutes_and_records (em : EqModel) (prop : PropertyKind) :
    ∀ (atoms : List Formula) (ineqs : List (Nat × Nat)),
      (∀ nr args, (.Pred nr args) ∈ atoms → (em.pred nr).properties prop = true →
        ∃ m1 m2, (args.get? (em.pred nr).arg1).bind Term.markId = some m1 ∧
          (args.get? (em.pred nr).arg2).bind Term.markId = some m2) →
      (∀ x y, em.classMark x = em.classMark y → x = y) →
      ((∃ nr args m1 m2, (.Pred nr args) ∈ atoms ∧ (em.pred nr).properties prop = true ∧
          (args.get? (em.pred nr).arg1).bind Term.markId = some m1 ∧
          (args.get? (em.pred nr).arg2).bind Term.markId = some m2 ∧
          em.marks m1 = em.marks m2) →
        check_refl em atoms prop ineqs = .unsat) ∧
      (∀ ineqs2, check_refl em atoms prop ineqs = .ok ineqs2 →
        (∀ x ∈ ineqs, x ∈ ineqs2) ∧
        ∀ nr args m1 m2, (.Pred nr args) ∈ atoms → (em.pred nr).properties prop = true →
          (args.get? (em.pred nr).arg1).bind Term.markId = some m1 →
          (args.get? (em.pred nr).arg2).bind Term.markId = some m2 →
          em.marks m1 ≠ em.marks m2 ∧
          normPair (em.classMark (em.marks m1)) (em.classMark (em.marks m2)) ∈ ineqs2) := by
  intro atoms
  induction atoms with
  | nil =>
    intro ineqs hWF hInj
    refine ⟨fun hex => ?_, fun ineqs2 h => ?_⟩
    · rcases hex with ⟨nr, args, m1, m2, hmem, _⟩
      simp at hmem
    · simp only [check_refl, PRes.ok.injEq] at h
      subst h
      exact ⟨fun x hx => hx, fun nr args m1 m2 hmem => by simp at hmem⟩
  | cons f rest ih =>
    intro ineqs hWF hInj
    have hWFr : ∀ nr args, (.Pred nr args) ∈ rest → (em.pred nr).properties prop = true →
        ∃ m1 m2, (args.get? (em.pred nr).arg1).bind Term.markId = some m1 ∧
          (args.get? (em.pred nr).arg2).bind Term.markId = some m2 :=
      fun nr args hmem hp => hWF nr args (List.mem_cons_of_mem _ hmem) hp
    cases f
    case Pred nr2 args2 =>
      by_cases hp : (em.pred nr2).properties prop = true
      · rcases hWF nr2 args2 (List.mem_cons_self _ _) hp with ⟨m1, m2, hm1, hm2⟩
        by_cases heq : em.marks m1 = em.marks m2
        · have hred : check_refl em (.Pred nr2 args2 :: rest) prop ineqs = .unsat := by
            simp only [check_refl, hm1, hm2, hp, if_true, if_pos heq]
          refine ⟨fun _ => hred, fun ineqs2 h => ?_⟩
          rw [hred] at h
          simp at h
        · have hnem : em.classMark (em.marks m1) ≠ em.classMark (em.marks m2) :=
            fun hc => heq (hInj _ _ hc)
          rcases ineqsPush_ne_some ineqs _ _ hnem with ⟨l2, hpush⟩
          have hred : check_refl em (.Pred nr2 args2 :: rest) prop ineqs =
              check_refl em rest prop l2 := by
            simp only [check_refl, hm1, hm2, hp, if_true, if_neg heq, hpush]
          rcases ih l2 hWFr hInj with ⟨ih1, ih2⟩
          refine ⟨fun hex => ?_, fun ineqs2 h => ?_⟩
          · rw [hred]
            rcases hex with ⟨nr, args, n1, n2, hmem, hpr, hn1, hn2, hsame⟩
            rcases List.mem_cons.mp hmem with hhead | htail
            · cases hhead
              rw [hn1] at hm1
              rw [hn2] at hm2
              cases hm1
              cases hm2
              exact absurd hsame heq
            · exact ih1 ⟨nr, args, n1, n2, htail, hpr, hn1, hn2, hsame⟩
          · rw [hred] at h
            rcases ih2 ineqs2 h with ⟨hmono, hrest⟩
            have hmono0 : ∀ x ∈ ineqs, x ∈ ineqs2 :=
              fun x hx => hmono x ((ineqsPush_mem ineqs l2 _ _ hpush).2 x hx)
            refine ⟨hmono0, fun nr args n1 n2 hmem hpr hn1 hn2 => ?_⟩
            rcases List.mem_cons.mp hmem with hhead | htail
            · cases hhead
              rw [hn1] at hm1
              rw [hn2] at hm2
              cases hm1
              cases hm2
              exact ⟨heq, hmono _ ((ineqsPush_mem ineqs l2 _ _ hpush).1)⟩
            · exact hrest nr args n1 n2 htail hpr hn1 hn2
      · have hred : check_refl em (.Pred nr2 args2 :: rest) prop ineqs =
            check_refl em rest prop ineqs := by
          simp only [check_refl, hp, Bool.false_eq_true, if_false]
        rcases ih ineqs hWFr hInj with ⟨ih1, ih2⟩
        refine ⟨fun hex => ?_, fun ineqs2 h => ?_⟩
        · rw [hred]
          rcases hex with ⟨nr, args, n1, n2, hmem, hpr, hn1, hn2, hsame⟩
          rcases List.mem_cons.mp hmem with hhead | htail
          · cases hhead
            exact absurd hpr hp
          · exact ih1 ⟨nr, args, n1, n2, htail, hpr, hn1, hn2, hsame⟩
        · rw [hred] at h
          rcases ih2 ineqs2 h with ⟨hmono, hrest⟩
          refine ⟨hmono, fun nr args n1 n2 hmem hpr hn1 hn2 => ?_⟩
          rcases List.mem_cons.mp hmem with hhead | htail
          · cases hhead
            exact absurd hpr hp
          · exact hrest nr args n1 n2 htail hpr hn1 hn2
    all_goals (
      rcases ih ineqs hWFr hInj with ⟨ih1, ih2⟩
      refine ⟨fun hex => ?_, fun ineqs2 h => ?_⟩
      · show check_refl em rest prop ineqs = PRes.unsat
        rcases hex with ⟨nr, args, n1, n2, hmem, hpr, hn1, hn2, hsame⟩
        rcases List.mem_cons.mp hmem with hhead | htail
        · simp at hhead
        · exact ih1 ⟨nr, args, n1, n2, htail, hpr, hn1, hn2, hsame⟩
      · replace h : check_refl em rest prop ineqs = .ok ineqs2 := h
        rcases ih2 ineqs2 h with ⟨hmono, hrest⟩
        refine ⟨hmono, fun nr args n1 n2 hmem hpr hn1 hn2 => ?_⟩
        rcases List.mem_cons.mp hmem with hhead | htail
        · simp at hhead
        · exact hrest nr args n1 n2 htail hpr hn1 hn2)

/-- C7 witness: a single reflexive negative atom `¬P(a, b)` over distinct
classes `0` and `1` (identity mark and canonical-mark tables): `check_refl`
returns normally and the pair is recorded. -/
theorem C7_check_refl_refutes_and_records_witness :
    (0 : Nat) ≠ 1 ∧ normPair 0 1 ∈ [((0 : Nat), (1 : Nat))] := by
  refine ((C7_check_refl_refutes_and_records ⟨fun _ => ⟨fun _ => true, 0, 1⟩, id, id⟩
      .Reflexivity [.Pred 0 [.EqMark 0, .EqMark 1]] [] ?_ (fun x y hxy => hxy)).2
      [(0, 1)] rfl).2 0 [.EqMark 0, .EqMark 1] 0 1 (by simp) rfl rfl rfl
  intro nr args hmem hp
  simp at hmem
  obtain ⟨rfl, rfl⟩ := hmem
  exact ⟨0, 1, rfl, rfl⟩

/-- When the conjunct loop of `justify` finishes normally, the stage
discipline (vector growth, balanced scopes, untouched round-up flag) extends
to the whole loop. -/
theorem runConjuncts_ok {α : Type} (stage : α → CkState → CkState × Bool)
    (hstage : ∀ a t, t.fixed_var ≤ (stage a t).1.fixed_var ∧
      t.infer_const ≤ (stage a t).1.infer_const ∧
      (stage a t).1.cache_scopes = t.cache_scopes ∧
      (stage a t).1.recursive_round_up = t.recursive_round_up) :
    ∀ (l : List α) (s s4 : CkState), runConjuncts stage l s = .ok s4 →
      s.fixed_var ≤ s4.fixed_var ∧ s.infer_const ≤ s4.infer_const ∧
      s4.cache_scopes = s.cache_scopes ∧ s4.recursive_round_up = s.recursive_round_up := by
  intro l
  induction l with
  | nil =>
    intro s s4 h
    simp only [runConjuncts, Except.ok.injEq] at h
    subst h
    exact ⟨le_refl _, le_refl _, rfl, rfl⟩
  | cons f rest ih =>
    intro s s4 h
    replace h : (if (stage f s).2 = true then runConjuncts stage rest (stage f s).1
        else Except.error (stage f s).1) = .ok s4 := h
    cases hr2 : (stage f s).2 with
    | false => rw [hr2] at h; simp at h
    | true =>
      rw [hr2] at h
      simp only [if_true] at h
      rcases ih _ _ h with ⟨h1, h2, h3, h4⟩
      rcases hstage f s with ⟨g1, g2, g3, g4⟩
      exact ⟨le_trans g1 h1, le_trans g2 h2, h3.trans g3, h4.trans g4⟩

/-- When the conjunct loop of `justify` panics, the state at the panic obeys
the same discipline relative to the loop's starting state. -/
theorem runConjuncts_error {α : Type} (stage : α → CkState → CkState × Bool)
    (hstage : ∀ a t, t.fixed_var ≤ (stage a t).1.fixed_var ∧
      t.infer_const ≤ (stage a t).1.infer_const ∧
      (stage a t).1.cache_scopes = t.cache_scopes ∧
      (stage a t).1.recursive_round_up = t.recursive_round_up) :
    ∀ (l : List α) (s sp : CkState), runConjuncts stage l s = .error sp →
      s.fixed_var ≤ sp.fixed_var ∧ s.infer_const ≤ sp.infer_const ∧
      sp.cache_scopes = s.cache_scopes ∧ sp.recursive_round_up = s.recursive_round_up := by
  intro l
  induction l with
  | nil =>
    intro s sp h
    simp [runConjuncts] at h
  | cons f rest ih =>
    intro s sp h
    replace h : (if (stage f s).2 = true then runConjuncts stage rest (stage f s).1
        else Except.error (stage f s).1) = .error sp := h
    cases hr2 : (stage f s).2 with
    | false =>
      rw [hr2] at h
      simp only [Bool.false_eq_true, if_false, Except.error.injEq] at h
      subst h
      rcases hstage f s with ⟨g1, g2, g3, g4⟩
      exact ⟨g1, g2, g3, g4⟩
    | true =>
      rw [hr2] at h
      simp only [if_true] at h
      rcases ih _ _ h with ⟨h1, h2, h3, h4⟩
      rcases hstage f s with ⟨g1, g2, g3, g4⟩
      exact ⟨le_trans g1 h1, le_trans g2 h2, h3.trans g3, h4.trans g4⟩

/-- C9: on every normal return of `Checker::justify` — the pipeline stages
observing the spec's stack discipline (they only grow `fixed_var` and
`infer_const` and leave the `term_cache` scope depth balanced) — the
`fixed_var` and `infer_const` lengths are truncated back to their values at
entry, the `term_cache` scope opened at entry is closed (the depth returns to
its entry value), and the `recursive_round_up` flag is reset to `false`. -/
theorem C9_justify_restores_frame {α : Type} (pf : CkState → CkState × List α)
    (stage : α → CkState → CkState × Bool) (s s2 : CkState)
    (hpre : ∀ t, t.fixed_var ≤ (pf t).1.fixed_var ∧
      t.infer_const ≤ (pf t).1.infer_const ∧ (pf t).1.cache_scopes = t.cache_scopes)
    (hstage : ∀ a t, t.fixed_var ≤ (stage a t).1.fixed_var ∧
      t.infer_const ≤ (stage a t).1.infer_const ∧
      (stage a t).1.cache_scopes = t.cache_scopes ∧
      (stage a t).1.recursive_round_up = t.recursive_round_up)
    (h : justify pf stage s = .ok s2) :
    s2.fixed_var = s.fixed_var ∧ s2.infer_const = s.infer_const ∧
    s2.cache_scopes = s.cache_scopes ∧ s2.recursive_round_up = false := by
  unfold justify at h
  cases hrun : runConjuncts stage (pf s.open_scope).2
      { (pf s.open_scope).1 with recursive_round_up := true } with
  | error sp => rw [hrun] at h; simp at h
  | ok s4 =>
    rw [hrun] at h
    simp only [Except.ok.injEq] at h
    subst h
    rcases runConjuncts_ok stage hstage _ _ _ hrun with ⟨h1, h2, h3, _⟩
    rcases hpre s.open_scope with ⟨p1, p2, p3⟩
    have hfv : s.open_scope.fixed_var ≤ s4.fixed_var := le_trans p1 h1
    have hic : s.open_scope.infer_const ≤ s4.infer_const := le_trans p2 h2
    have hsc : s4.cache_scopes = s.cache_scopes + 1 := by
      rw [h3]
      simpa [CkState.open_scope] using p3
    refine ⟨?_, ?_, ?_, rfl⟩
    · simpa [CkState.close_scope, CkState.open_scope] using min_eq_right hfv
    · simpa [CkState.close_scope, CkState.open_scope] using min_eq_right hic
    · simp [CkState.close_scope, hsc]

/-- C9 witness: an empty normal form over identity stages at the zero state;
the frame is restored. -/
theorem C9_justify_restores_frame_witness :
    (CkState.mk 0 0 0 false).fixed_var = 0 ∧ (CkState.mk 0 0 0 false).infer_const = 0 ∧
    (CkState.mk 0 0 0 false).cache_scopes = 0 ∧
    (CkState.mk 0 0 0 false).recursive_round_up = false := by
  refine C9_justify_restores_frame (fun t => (t, ([] : List Unit))) (fun _ t => (t, true))
    ⟨0, 0, 0, false⟩ ⟨0, 0, 0, false⟩
    (fun t => ⟨le_refl _, le_refl _, rfl⟩)
    (fun a t => ⟨le_refl _, le_refl _, rfl, rfl⟩) rfl

/-- C10: when some DNF conjunct survives the pipeline (its stage result is
not a break), `justify` propagates the `assert!` panic raised inside the
conjunct loop: the panic state is exactly the loop's error state, reached
before the snapshot restore, so its `recursive_round_up` flag is still set,
the `term_cache` scope opened at entry is still open (depth one above entry),
and no truncation has been applied to `fixed_var` or `infer_const` (they
retain their grown values). -/
theorem C10_justify_panic_skips_restore {α : Type} (pf : CkState → CkState × List α)
    (stage : α → CkState → CkState × Bool) (s sp : CkState)
    (hpre : ∀ t, t.fixed_var ≤ (pf t).1.fixed_var ∧
      t.infer_const ≤ (pf t).1.infer_const ∧ (pf t).1.cache_scopes = t.cache_scopes)
    (hstage : ∀ a t, t.fixed_var ≤ (stage a t).1.fixed_var ∧
      t.infer_const ≤ (stage a t).1.infer_const ∧
      (stage a t).1.cache_scopes = t.cache_scopes ∧
      (stage a t).1.recursive_round_up = t.recursive_round_up)
    (h : justify pf stage s = .error sp) :
    sp.recursive_round_up = true ∧ sp.cache_scopes = s.cache_scopes + 1 ∧
    s.fixed_var ≤ sp.fixed_var ∧ s.infer_const ≤ sp.infer_const ∧
    runConjuncts stage (pf s.open_scope).2
      { (pf s.open_scope).1 with recursive_round_up := true } = .error sp := by
  unfold justify at h
  cases hrun : runConjuncts stage (pf s.open_scope).2
      { (pf s.open_scope).1 with recursive_round_up := true } with
  | ok s4 => rw [hrun] at h; simp at h
  | error sp1 =>
    rw [hrun] at h
    simp only [Except.error.injEq] at h
    subst h
    rcases runConjuncts_error stage hstage _ _ _ hrun with ⟨h1, h2, h3, h4⟩
    rcases hpre s.open_scope with ⟨p1, p2, p3⟩
    refine ⟨h4, ?_, ?_, ?_, rfl⟩
    · rw [h3]
      simpa [CkState.open_scope] using p3
    · exact le_trans (le_trans (le_refl _) p1) h1
    · exact le_trans p2 h2

/-- C10 witness: a single surviving conjunct over identity stages at the zero
state; `justify` propagates the panic with the scope open and the flag set. -/
theorem C10_justify_panic_skips_restore_witness :
    (CkState.mk 0 0 1 true).recursive_round_up = true ∧
    (CkState.mk 0 0 1 true).cache_scopes = (CkState.mk 0 0 0 false).cache_scopes + 1 ∧
    (CkState.mk 0 0 0 false).fixed_var ≤ (CkState.mk 0 0 1 true).fixed_var ∧
    (CkState.mk 0 0 0 false).infer_const ≤ (CkState.mk 0 0 1 true).infer_const ∧
    runConjuncts (fun _ t => (t, false)) ((fun t => (t, [()])) (CkState.mk 0 0 0 false).open_scope).2
      { ((fun t => (t, [()])) (CkState.mk 0 0 0 false).open_scope).1 with
        recursive_round_up := true } = .error (CkState.mk 0 0 1 true) := by
  refine C10_justify_panic_skips_restore (fun t => (t, [()])) (fun _ t => (t, false))
    ⟨0, 0, 0, false⟩ ⟨0, 0, 1, true⟩
    (fun t => ⟨le_refl _, le_refl _, rfl⟩)
    (fun a t => ⟨le_refl _, le_refl _, rfl, rfl⟩) rfl

/-- C4: counterexample to the claim as stated.  On the flex expansion
`∀ x. ¬(c₀ ∧ c₁ ∧ P(x))` with numeral bounds `1` and `2` under positive
polarity, `expand_flex` appends `¬P(1), ¬P(2)` — each instantiated scope is
wrapped by `maybe_neg (!pos)` before being appended — and not the
instantiated scope `P(1), P(2)` itself as the claim describes. -/
theorem C4_expand_flex_counterexample :
    expand_flex ⟨id, none⟩ (.Numeral 1) (.Numeral 2)
      (.ForAll ⟨.Mode 0, []⟩ (.Neg (.And [.True, .True, .Pred 5 [.Bound 0]]))) [] true =
      some [.Neg (.Pred 5 [.Numeral 1]), .Neg (.Pred 5 [.Numeral 2])] ∧
    some [Formula.Neg (.Pred 5 [.Numeral 1]), .Neg (.Pred 5 [.Numeral 2])] ≠
      some [Formula.Pred 5 [.Numeral 1], .Pred 5 [.Numeral 2]] := by
  decide

/-- The instantiation loop of `expand_flex` appends one conjunct per index
when every instance term resolves and no appended formula is itself a
conjunction. -/
theorem flexLoop_map (zero : Option Term) (scope : Formula) (pos : Bool) :
    ∀ (idxs : List Nat) (conjs : List Formula) (tmF : Nat → Term),
      (∀ i ∈ idxs, flexInstTerm zero i = some (tmF i)) →
      (∀ i ∈ idxs, ((scope.inst0 (tmF i)).maybe_neg (!pos)).appendConjuncts =
        [(scope.inst0 (tmF i)).maybe_neg (!pos)]) →
      flexLoop zero scope pos idxs conjs =
        some (conjs ++ idxs.map fun i => (scope.inst0 (tmF i)).maybe_neg (!pos)) := by
  intro idxs
  induction idxs with
  | nil =>
    intro conjs tmF h1 h2
    simp [flexLoop]
  | cons i is ih =>
    intro conjs tmF h1 h2
    unfold flexLoop
    rw [h1 i (List.mem_cons_self i is)]
    dsimp only
    rw [h2 i (List.mem_cons_self i is)]
    rw [ih _ tmF (fun j hj => h1 j (List.mem_cons_of_mem i hj))
      (fun j hj => h2 j (List.mem_cons_of_mem i hj))]
    simp

/-- C4 (amended): whenever `expand_flex` is applied to a `FlexAnd` whose left
bound is recognized (a numeral `L`, or the `zero_number` functor standing for
`L = 0`) and whose right bound is a numeral `R` with `L ≤ R` and
`R − L ≤ 100`, it appends exactly `R − L + 1` conjuncts, the `i`-th (for
`i = L..R`) being `maybe_neg (!pos)` applied to the element after two
conjuncts of the expansion's `And` with the instance term for `i` (the
numeral `i`, or the zero term for `i = 0`) substituted for the innermost
bound variable and all deeper indices decremented — that is, the substituted
scope itself when the flex formula is being expanded under negative polarity
and its negation under positive polarity — provided each instance term
resolves (`L = 0` as a bare numeral panics) and no appended formula is itself
flattened as a conjunction; for an unrecognized bound or a larger range the
conjunct list is left alone. -/
theorem C4_expand_flex_amended (ctx : FlexCtx) (t1 : Term) (dom : Ty) (a0 a1 : Formula)
    (rest : List Formula) (scope : Formula) (conjs : List Formula) (pos : Bool)
    (zero : Option Term) (L R : Nat) (tmF : Nat → Term)
    (hleft : flexLeft ctx t1 = some (zero, L))
    (hLR : L ≤ R) (hrange : R - L ≤ 100)
    (htm : ∀ i, L ≤ i → i ≤ R → flexInstTerm zero i = some (tmF i))
    (hone : ∀ i, L ≤ i → i ≤ R →
      ((scope.inst0 (tmF i)).maybe_neg (!pos)).appendConjuncts =
        [(scope.inst0 (tmF i)).maybe_neg (!pos)]) :
    expand_flex ctx t1 (.Numeral R)
        (.ForAll dom (.Neg (.And (a0 :: a1 :: scope :: rest)))) conjs pos =
      some (conjs ++
        (List.range' L (R + 1 - L)).map fun i => (scope.inst0 (tmF i)).maybe_neg (!pos)) ∧
    ((List.range' L (R + 1 - L)).map fun i => (scope.inst0 (tmF i)).maybe_neg (!pos)).length =
      R - L + 1 := by
  have hmem : ∀ i ∈ List.range' L (R + 1 - L), L ≤ i ∧ i ≤ R := by
    intro i hi
    rw [List.mem_range'_1] at hi
    omega
  constructor
  · simp only [expand_flex, hleft, if_pos hrange]
    exact flexLoop_map zero scope pos _ conjs tmF
      (fun i hi => htm i (hmem i hi).1 (hmem i hi).2)
      (fun i hi => hone i (hmem i hi).1 (hmem i hi).2)
  · rw [List.length_map, List.length_range']
    omega

/-- C4 witness: the amended statement at the concrete flex expansion
`∀ x. ¬(⊤ ∧ ⊤ ∧ P(x))` with numeral bounds `1` and `2` under positive
polarity: two conjuncts `¬P(1), ¬P(2)` are appended. -/
theorem C4_expand_flex_amended_witness :
    expand_flex ⟨id, none⟩ (.Numeral 1) (.Numeral 2)
        (.ForAll ⟨.Mode 0, []⟩ (.Neg (.And (.True :: .True :: .Pred 5 [.Bound 0] :: [])))) [] true =
      some ([] ++ (List.range' 1 (2 + 1 - 1)).map fun i =>
        ((Formula.Pred 5 [.Bound 0]).inst0 (Term.Numeral i)).maybe_neg (!true)) ∧
    ((List.range' 1 (2 + 1 - 1)).map fun i =>
      ((Formula.Pred 5 [.Bound 0]).inst0 (Term.Numeral i)).maybe_neg (!true)).length =
      2 - 1 + 1 := by
  refine C4_expand_flex_amended ⟨id, none⟩ (.Numeral 1) ⟨.Mode 0, []⟩ .True .True []
    (.Pred 5 [.Bound 0]) [] true none 1 2 (fun i => .Numeral i) rfl (by omega) (by omega)
    (fun i h1 h2 => ?_) (fun i h1 h2 => rfl)
  have hne : i ≠ 0 := by omega
  simp [flexInstTerm, hne]

end Mizar
